import Mathlib

/-!
Shallow embedding of the semantic retrieval and concept-layout engine of the
obsidian-systematics plugin, with theorems checking the specification's claims
against it.  JS numbers are modelled as real numbers (exact arithmetic); where
a claim hinges on JS non-finite values (NaN from 0/0) an explicit
`Option ℝ`-valued model is used, `none` standing for any non-finite value.
Rational constants such as 0.12 are written as rational literals (12/100).
-/

namespace Systematics

/-- Character-list infix test: `sub` occurs contiguously in the list. -/
def isInfixList (sub : List Char) : List Char → Bool
  | [] => sub.isEmpty
  | c :: rest => sub.isPrefixOf (c :: rest) || isInfixList sub rest

/-- JS `String.prototype.includes`: substring containment (the empty string is
contained in everything, as in JS). -/
def jsIncludes (hay sub : String) : Bool :=
  isInfixList sub.data hay.data

/-- JS `String.prototype.startsWith`. -/
def jsStartsWith (hay head : String) : Bool :=
  head.data.isPrefixOf hay.data

/-- Splitting of a character list at every character satisfying `p`, keeping
empty pieces, with `acc` the piece being read (in reverse). -/
def splitListAux (p : Char → Bool) : List Char → List Char → List String
  | [], acc => [String.mk acc.reverse]
  | c :: rest, acc =>
    if p c then String.mk acc.reverse :: splitListAux p rest []
    else splitListAux p rest (c :: acc)

/-- Splitting of a string at every character satisfying `p` (the semantics of
core `String.split`, restated structurally over the character list). -/
def splitPred (p : Char → Bool) (s : String) : List String :=
  splitListAux p s.data []

/-- Model of JS `split(/\s+/)`: split at every whitespace character.  JS
collapses runs of separators where this keeps empty pieces; every use site
filters by a positive length or matches against nonempty words afterwards, so
the extra empty pieces are inert. -/
def splitWs (s : String) : List String :=
  splitPred (fun c => c.isWhitespace) s

/-- Model of JS `split('/')` on paths. -/
def splitSlash (s : String) : List String :=
  splitPred (fun c => c == '/') s

/-- Model of JS `split(/[\s-_]+/)` used on folder names (vectorIndex
`findNearest`, src/unnamed/part_004 line 172); empty pieces are inert as in
`splitWs`. -/
def splitFolderChars (s : String) : List String :=
  splitPred (fun c => c.isWhitespace || c == '-' || c == '_') s

/-- Model of JS `toLowerCase` (ASCII range, as core `Char.toLower`). -/
def toLowerStr (s : String) : String :=
  String.mk (s.data.map Char.toLower)

/-- Model of JS `trim`: whitespace stripped from both ends. -/
def trimStr (s : String) : String :=
  String.mk (((s.data.dropWhile Char.isWhitespace).reverse.dropWhile
    Char.isWhitespace).reverse)

/-- Model of JS `slice(0, n)` on strings. -/
def takeStr (s : String) (n : Nat) : String :=
  String.mk (s.data.take n)

/-- Note metadata stored with each embedding record (semanticTypes.ts). -/
structure NoteMetadata where
  title : String
  path : String
  mtime : Int
  tags : List String
  links : List String

/-- One stored embedding record (semanticTypes.ts `EmbeddingRecord`). -/
structure EmbeddingRecord where
  id : String
  embedding : List ℝ
  text : String
  metadata : NoteMetadata
  timestamp : Int

/-- A scored search result (semanticTypes.ts `ScoredNote`). -/
structure ScoredNote where
  path : String
  score : ℝ
  embedding : List ℝ
  metadata : NoteMetadata

/-- Dot product loop of `EmbeddingService.cosineSimilarity`
(src/unnamed/part_002 lines 186-190). -/
def dotList (a b : List ℝ) : ℝ :=
  (List.zipWith (fun x y => x * y) a b).sum

/-- Norm of a vector as computed by `EmbeddingService.cosineSimilarity`:
square root of the sum of squares. -/
noncomputable def vecNorm (v : List ℝ) : ℝ :=
  Real.sqrt ((v.map (fun x => x * x)).sum)

/-- `EmbeddingService.cosineSimilarity` (src/unnamed/part_002 lines 177-200,
identical in src/unnamed/part_003 lines 303-326): throws on dimension
mismatch, returns 0 when either norm is zero, otherwise the dot product
divided by the product of the norms. -/
noncomputable def cosineSimilarity (a b : List ℝ) : Except String ℝ :=
  if a.length ≠ b.length then
    Except.error "Vectors must have same dimensions"
  else if vecNorm a = 0 ∨ vecNorm b = 0 then
    Except.ok 0
  else
    Except.ok (dotList a b / (vecNorm a * vecNorm b))

/-- Folder-word match used for the +0.12 path boost (src/unnamed/part_004
lines 176-178): exact equality, containment, or abbreviation. -/
def folderWordMatch (folderWord word : String) : Bool :=
  folderWord == word || jsIncludes folderWord word ||
    (decide (3 ≤ folderWord.length) && jsStartsWith word folderWord)

/-- Path-segment loop for one query word (src/unnamed/part_004 lines 168-183):
+0.12 for every path segment holding a matching folder word (the inner
`break` caps the contribution at one per segment). -/
def segBoost (word : String) (pathParts : List String) : ℚ :=
  pathParts.foldl
    (fun acc part =>
      if (splitFolderChars part).any (fun fw => folderWordMatch fw word) then
        acc + 12/100
      else acc)
    0

/-- The hybrid metadata boost block of `VectorIndex.findNearest`
(src/unnamed/part_004 lines 157-206): per query word of length above 3, +0.12
per matching path segment and +0.08 for a title hit; then a flat +0.15 when
the best path segment substring-contains at least two query words. -/
def hybridBoost (queryText recordId title : String) : ℚ :=
  let queryLower := toLowerStr queryText
  let pathLower := toLowerStr recordId
  let titleLower := toLowerStr title
  let queryWords := (splitWs queryLower).filter (fun w => 2 < w.length)
  let pathParts := splitSlash pathLower
  let perWord := queryWords.foldl
    (fun acc word =>
      if 3 < word.length then
        acc + segBoost word pathParts +
          (if jsIncludes titleLower word then 8/100 else 0)
      else acc)
    0
  let folderMatchCount := pathParts.foldl
    (fun best part =>
      max best
        ((queryWords.filter
          (fun w => decide (3 < w.length) && jsIncludes part w)).length))
    0
  perWord + (if 2 ≤ folderMatchCount then 15/100 else 0)

/-- Score of one record in `VectorIndex.findNearest` (src/unnamed/part_004
lines 153-217): cosine similarity plus the hybrid boost, clamped above at 1
by `Math.min`. -/
noncomputable def scoreRecord (queryEmbedding : List ℝ) (queryText : Option String)
    (r : EmbeddingRecord) : Except String ScoredNote :=
  match cosineSimilarity queryEmbedding r.embedding with
  | Except.error e => Except.error e
  | Except.ok semanticScore =>
    let boost : ℝ := match queryText with
      | none => 0
      | some qt => ((hybridBoost qt r.id r.metadata.title : ℚ) : ℝ)
    Except.ok { path := r.id, score := min 1 (semanticScore + boost),
                embedding := r.embedding, metadata := r.metadata }

/-- The `records.map(...)` of `findNearest`: a thrown dimension mismatch
escapes the whole call, as the JS exception does. -/
noncomputable def scoreAll (q : List ℝ) (qt : Option String) :
    List EmbeddingRecord → Except String (List ScoredNote)
  | [] => Except.ok []
  | r :: rs =>
    match scoreRecord q qt r with
    | Except.error e => Except.error e
    | Except.ok s =>
      match scoreAll q qt rs with
      | Except.error e => Except.error e
      | Except.ok rest => Except.ok (s :: rest)

/-- Stable insertion for a descending sort: `x` goes before the first element
whose key does not exceed `x`'s.  This realises the ECMAScript guarantee that
`sort((a, b) => b.key - a.key)` is a stable descending sort. -/
noncomputable def insertDesc {α : Type} (key : α → ℝ) (x : α) :
    List α → List α
  | [] => [x]
  | y :: ys => if key y ≤ key x then x :: y :: ys else y :: insertDesc key x ys

/-- Stable descending sort by a real-valued key (model of JS
`sort((a, b) => b.key - a.key)`). -/
noncomputable def sortDesc {α : Type} (key : α → ℝ) : List α → List α
  | [] => []
  | x :: xs => insertDesc key x (sortDesc key xs)

/-- `VectorIndex.findNearest` (src/unnamed/part_004 lines 146-223; the copy at
src/src/vectorIndex.ts lines 146-201 differs only inside the boost block):
score every record, sort descending by score, keep the first `k`.  The record
list stands for `getAllRecords()`, which IndexedDB returns in ascending key
(id) order. -/
noncomputable def findNearest (queryEmbedding : List ℝ) (k : Nat)
    (queryText : Option String) (records : List EmbeddingRecord) :
    Except String (List ScoredNote) :=
  match scoreAll queryEmbedding queryText records with
  | Except.error e => Except.error e
  | Except.ok scored => Except.ok ((sortDesc ScoredNote.score scored).take k)

/-- Normalized query tokens of length above 3, as the spec's boost rules gate
them (lowercased, whitespace-split). -/
def specTokens (q : String) : List String :=
  (splitWs (toLowerStr q)).filter (fun w => 3 < w.length)

/-- Number of path segments in which a query word matches a folder word. -/
def segMatchCount (word : String) (pathParts : List String) : Nat :=
  (pathParts.filter
    (fun part => (splitFolderChars part).any (fun fw => folderWordMatch fw word))).length

/-- Modelled from the claim's words (for comparison with `hybridBoost`): +0.12
per DISTINCT query word per matching path segment, +0.08 per distinct query
word found in the title, +0.15 when at least two distinct query words are
substring-contained in one path segment. -/
def specBoostClaim (queryText path title : String) : ℚ :=
  let queryWords := (specTokens queryText).dedup
  let pathParts := splitSlash (toLowerStr path)
  12/100 * ((queryWords.map (fun w => (segMatchCount w pathParts : ℚ))).sum) +
    8/100 * ((queryWords.filter (fun w => jsIncludes (toLowerStr title) w)).length : ℚ) +
    (if pathParts.any
        (fun part => 2 ≤ (queryWords.filter (fun w => jsIncludes part w)).length)
      then 15/100 else 0)

/-- Outcome of a full `indexVault` run: completion with counts, or the
circuit-breaker abort (the thrown `Too many indexing failures`). -/
inductive IndexOutcome where
  | completed (indexed failed : Nat)
  | aborted (indexed failed : Nat)
deriving DecidableEq

/-- Per-document loop of `SemanticMonadView.indexVault` (semanticMonadView.ts
lines 333-366), abstracted over the success/failure outcome of each document:
a success increments `indexed`, a failure increments `failed` and aborts the
whole run when more than 5 failures have occurred while fewer than 10
documents were indexed.  The batching into groups of 5 does not change the
sequential control flow and is dropped. -/
def indexLoop : List Bool → Nat → Nat → IndexOutcome
  | [], indexed, failed => IndexOutcome.completed indexed failed
  | true :: rest, indexed, failed => indexLoop rest (indexed + 1) failed
  | false :: rest, indexed, failed =>
    if 5 < failed + 1 ∧ indexed < 10 then IndexOutcome.aborted indexed (failed + 1)
    else indexLoop rest indexed (failed + 1)

/-- `SemanticMonadView.indexVault` over a list of per-document outcomes
(`true` = the document indexes without throwing). -/
def indexVault (outcomes : List Bool) : IndexOutcome :=
  indexLoop outcomes 0 0

/-- Lookup by id, as the IndexedDB keyed store's `getNote`. -/
def findRecord (store : List EmbeddingRecord) (path : String) : Option EmbeddingRecord :=
  store.find? (fun r => r.id == path)

/-- `VectorIndex.needsReindex` (src/src/vectorIndex.ts lines 206-212): true if
no record exists or the stored mtime is below the current one. -/
def needsReindex (store : List EmbeddingRecord) (path : String)
    (currentMtime : Int) : Bool :=
  match findRecord store path with
  | none => true
  | some record => decide (record.metadata.mtime < currentMtime)

/-- IndexedDB `store.put`: overwrite the record with the same key, else add. -/
def putRecord : List EmbeddingRecord → EmbeddingRecord → List EmbeddingRecord
  | [], r => [r]
  | x :: xs, r => if x.id = r.id then r :: xs else x :: putRecord xs r

/-- A vault file as `indexNote` reads it. -/
structure NoteFile where
  path : String
  basename : String
  mtime : Int
  content : String

/-- `SemanticMonadView.indexNote` (semanticMonadView.ts lines 400-440), with
the embedding service, the wiki-link extractor (pure in the note's content)
and the clock passed as parameters.  Returns the updated store and whether the
note was actually embedded and written: notes shorter than 50 characters and
notes for which `needsReindex` is false are skipped. -/
def indexNote (embed : String → List ℝ) (links : String → List String)
    (now : Int) (store : List EmbeddingRecord) (file : NoteFile) :
    List EmbeddingRecord × Bool :=
  if file.content.length < 50 then (store, false)
  else if needsReindex store file.path file.mtime = false then (store, false)
  else
    let meta : NoteMetadata :=
      { title := file.basename, path := file.path, mtime := file.mtime,
        tags := [], links := links file.content }
    (putRecord store
      { id := file.path, embedding := embed file.content,
        text := takeStr file.content 500, metadata := meta, timestamp := now },
     true)

/-- Query-word set built by `handleSemanticSearch` (semanticMonadView.ts line
486): trimmed, lowercased, whitespace-split, tokens of length above 3. -/
def buildQueryWords (query : String) : List String :=
  (splitWs (toLowerStr (trimStr query))).filter (fun w => 3 < w.length)

/-- An LLM concept after ranking (semanticMonadView.ts lines 571-582). -/
structure ConceptRanked where
  term : String
  embedding : List ℝ
  similarity : ℝ

/-- A concept as returned to the caller (semanticTypes.ts `ConceptNode`). -/
structure ConceptNode where
  term : String
  embedding : List ℝ
  similarity : ℝ
  hasNotes : Bool
  noteCount : Nat

/-- Ranking loop of `extractSemanticConcepts` (semanticMonadView.ts lines
571-582): cosine similarity of each embedded concept to the query; a thrown
dimension mismatch escapes (and is caught by the enclosing try). -/
noncomputable def rankConcepts (qe : List ℝ) :
    List (String × List ℝ) → Except String (List ConceptRanked)
  | [] => Except.ok []
  | (t, e) :: rest =>
    match cosineSimilarity qe e with
    | Except.error msg => Except.error msg
    | Except.ok sim =>
      match rankConcepts qe rest with
      | Except.error msg => Except.error msg
      | Except.ok rs => Except.ok ({ term := t, embedding := e, similarity := sim } :: rs)

/-- `SemanticMonadView.extractSemanticConcepts` (semanticMonadView.ts lines
534-622), with the LLM's concept list and the batch embedder as parameters:
filter out query words, embed, rank by similarity, sort descending, keep 25,
attach vault-note counts, keep 18.  Every caught exception (an embedding
batch shorter than the concept list makes the indexing at line 574 throw, as
does a cosine dimension mismatch) yields the empty list, as the catch block
does. -/
noncomputable def extractSemanticConcepts (llmConcepts : List String)
    (queryWords : List String) (embedBatch : List String → List (List ℝ))
    (queryEmbedding : List ℝ) (allRecords : List EmbeddingRecord) :
    List ConceptNode :=
  let filteredConcepts := llmConcepts.filter
    (fun term => !(queryWords.contains (toLowerStr term)))
  if filteredConcepts.isEmpty then []
  else
    let conceptEmbeddings := embedBatch filteredConcepts
    if conceptEmbeddings.length < filteredConcepts.length then []
    else
      match rankConcepts queryEmbedding (filteredConcepts.zip conceptEmbeddings) with
      | Except.error _ => []
      | Except.ok ranked =>
        let topConcepts := (sortDesc ConceptRanked.similarity ranked).take 25
        let conceptsWithNotes := topConcepts.map (fun c =>
          let relatedNotes := allRecords.filter (fun record =>
            jsIncludes (toLowerStr record.metadata.title) (toLowerStr c.term) ||
              jsIncludes (toLowerStr record.id) (toLowerStr c.term))
          { term := c.term, embedding := c.embedding, similarity := c.similarity,
            hasNotes := !relatedNotes.isEmpty, noteCount := relatedNotes.length })
        conceptsWithNotes.take 18

/-- A 2D visualization point (semanticTypes.ts `Point2D`). -/
structure Point2D where
  x : ℝ
  y : ℝ
  label : String

/-- `SemanticMonadView.projectToVisualization` (semanticMonadView.ts lines
705-738): the fixed center labelled "query" at the origin followed by one
point per concept term, placed on a jittered circle of base radius 0.7 (the
`Math.random()` perturbations are passed in as `jitter`). -/
noncomputable def projectToVisualization (jitter : Nat → ℝ × ℝ)
    (conceptTerms : List String) : List Point2D :=
  let center : Point2D := { x := 0, y := 0, label := "query" }
  let count := conceptTerms.length
  let others := (conceptTerms.enum.map (fun ti =>
    let angle := ((ti.1 : ℝ) / (count : ℝ)) * (2 * Real.pi) + (jitter ti.1).1
    let r := 7/10 + (jitter ti.1).2
    { x := Real.cos angle * r, y := Real.sin angle * r, label := ti.2 : Point2D }))
  center :: others

/-- Mutable per-concept simulation state: position (the concept's `position2D`)
and velocity (the `conceptVelocities` entry, keyed here by list position). -/
structure ConceptState where
  term : String
  x : ℝ
  y : ℝ
  vx : ℝ
  vy : ℝ

/-- The whole layout state a query owns: the fixed center point (element 0 of
the stored projection, which `applyForces` never touches) and the concept
states. -/
structure SimState where
  center : Point2D
  concepts : List ConceptState

/-- Net force on concept `a` at index `i` (semanticMonadView.ts lines
760-789): repulsion from every other concept closer than 0.2, plus the weak
pull toward the target radius 0.7.  Division here is exact real division
(`x / 0 = 0` by Lean's convention); the JS non-finite behaviour of the same
expression is modelled separately by `pairRepulsion`. -/
noncomputable def netForceOn (cs : List ConceptState) (i : Nat)
    (a : ConceptState) : ℝ × ℝ :=
  let rep := cs.enum.foldl
    (fun (acc : ℝ × ℝ) jb =>
      if jb.1 = i then acc
      else
        let dx := a.x - jb.2.x
        let dy := a.y - jb.2.y
        let dist := Real.sqrt (dx * dx + dy * dy)
        if dist < 1/5 then
          let force := (5/100) / (dist + 1/100)
          (acc.1 + dx / dist * force, acc.2 + dy / dist * force)
        else acc)
    (0, 0)
  let dist := Real.sqrt (a.x ^ 2 + a.y ^ 2)
  if 0 < dist then
    let centerForce := (dist - 7/10) * (1/100)
    (rep.1 - a.x / dist * centerForce, rep.2 - a.y / dist * centerForce)
  else rep

/-- One pass of the `for i` loop of `applyForces` (semanticMonadView.ts lines
753-801): the concepts are updated in place, one after the other, each seeing
the already-updated positions of its predecessors. -/
noncomputable def applyForcesConcepts (cs : List ConceptState) : List ConceptState :=
  (List.range cs.length).foldl
    (fun acc i =>
      match acc[i]? with
      | none => acc
      | some a =>
        let f := netForceOn acc i a
        let vx' := (a.vx + f.1) * (85/100)
        let vy' := (a.vy + f.2) * (85/100)
        acc.set i { a with vx := vx', vy := vy',
                           x := a.x + vx', y := a.y + vy' })
    cs

/-- `SemanticMonadView.applyForces` (semanticMonadView.ts lines 743-802): one
tick of the force simulation.  It iterates over the concepts only; the center
point is not part of that set and is left untouched. -/
noncomputable def applyForces (s : SimState) : SimState :=
  { center := s.center, concepts := applyForcesConcepts s.concepts }

/-- The layout state right after `projectToVisualization` stored positions
and reset every velocity to (0, 0) (semanticMonadView.ts lines 728-735). -/
noncomputable def initSimState (jitter : Nat → ℝ × ℝ)
    (conceptTerms : List String) : SimState :=
  match projectToVisualization jitter conceptTerms with
  | [] => { center := { x := 0, y := 0, label := "query" }, concepts := [] }
  | c :: others =>
    { center := c,
      concepts := others.map (fun p =>
        { term := p.label, x := p.x, y := p.y, vx := 0, vy := 0 }) }

/-- JS division with non-finite results made explicit: `none` stands for NaN
or an infinity, which a zero divisor produces (0/0 is NaN, x/0 is ±∞). -/
noncomputable def jsDivF : Option ℝ → Option ℝ → Option ℝ
  | some a, some b => if b = 0 then none else some (a / b)
  | _, _ => none

/-- JS multiplication on the same model: finite times finite stays finite
(no overflow is modelled); anything non-finite propagates. -/
def jsMulF : Option ℝ → Option ℝ → Option ℝ
  | some a, some b => some (a * b)
  | _, _ => none

/-- The repulsion contribution of a neighbour at (bx, by) on a concept at
(ax, ay) in `applyForces` (semanticMonadView.ts lines 768-777), with JS
non-finite values explicit: the magnitude `0.05 / (dist + 0.01)` is guarded by
the +0.01, but the direction normalization divides `dx` and `dy` by the raw
`dist`. -/
noncomputable def pairRepulsion (ax ay bx by_ : ℝ) : Option ℝ × Option ℝ :=
  let dx := ax - bx
  let dy := ay - by_
  let dist := Real.sqrt (dx * dx + dy * dy)
  if dist < 1/5 then
    let force := jsDivF (some (5/100)) (some (dist + 1/100))
    (jsMulF (jsDivF (some dx) (some dist)) force,
     jsMulF (jsDivF (some dy) (some dist)) force)
  else (some 0, some 0)

/-- Distance from the origin as `scaleToRadius` computes it for each point
(projectionEngine.ts line 162). -/
noncomputable def dist0 (p : Point2D) : ℝ :=
  Real.sqrt (p.x * p.x + p.y * p.y)

/-- The maximum-distance loop of `scaleToRadius` (projectionEngine.ts lines
159-164): largest distance from the origin, starting from 0. -/
noncomputable def maxDistOf (points : List Point2D) : ℝ :=
  points.foldl (fun acc p => max acc (dist0 p)) 0

/-- `ProjectionEngine.scaleToRadius` (projectionEngine.ts lines 155-176):
scale all points by `radius / maxDist` so they fit in the given circle;
returns the points unchanged when the maximum distance is 0, and the empty
list for no points.  The object spread keeps every other field, so labels are
preserved. -/
noncomputable def scaleToRadius (points : List Point2D) (radius : ℝ) : List Point2D :=
  if points.isEmpty then []
  else if maxDistOf points = 0 then points
  else
    let scale := radius / maxDistOf points
    points.map (fun p => { p with x := p.x * scale, y := p.y * scale })

/-- Minimal metadata fixture for concrete instances. -/
def metaOf (t p : String) : NoteMetadata :=
  { title := t, path := p, mtime := 0, tags := [], links := [] }

/-- Concrete record fixture: id "a", embedding [1]. -/
def recA : EmbeddingRecord :=
  { id := "a", embedding := [1], text := "", metadata := metaOf "a" "a", timestamp := 0 }

/-- Concrete record fixture: id "b", embedding [1]. -/
def recB : EmbeddingRecord :=
  { id := "b", embedding := [1], text := "", metadata := metaOf "b" "b", timestamp := 0 }

/-- Concrete record fixture with an embedding opposite to [1]. -/
def recN : EmbeddingRecord :=
  { id := "n", embedding := [-1], text := "", metadata := metaOf "n" "n", timestamp := 0 }

/-! Theorems. -/

theorem indexLoop_completed_counts (l : List Bool) : ∀ i f a b : Nat,
    indexLoop l i f = IndexOutcome.completed a b →
    a = i + l.count true ∧ b = f + l.count false := by
  induction l with
  | nil =>
    intro i f a b h
    simp only [indexLoop, IndexOutcome.completed.injEq] at h
    simp [← h.1, ← h.2]
  | cons x rest ih =>
    intro i f a b h
    cases x with
    | true =>
      have := ih (i + 1) f a b (by simpa [indexLoop] using h)
      simp [List.count_cons] at *
      omega
    | false =>
      simp only [indexLoop] at h
      by_cases hc : 5 < f + 1 ∧ i < 10
      · rw [if_pos hc] at h
        exact absurd h (by simp)
      · rw [if_neg hc] at h
        have := ih i (f + 1) a b h
        simp [List.count_cons] at *
        omega

theorem indexLoop_aborted_iff (l : List Bool) : ∀ i f : Nat,
    (∃ a b, indexLoop l i f = IndexOutcome.aborted a b) ↔
      ∃ p q, l = p ++ false :: q ∧ 5 ≤ f + p.count false ∧
        i + p.count true < 10 := by
  induction l with
  | nil =>
    intro i f
    constructor
    · rintro ⟨a, b, h⟩
      exact absurd h (by simp [indexLoop])
    · rintro ⟨p, q, h, -, -⟩
      exact absurd h.symm (by simp)
  | cons x rest ih =>
    intro i f
    cases x with
    | true =>
      have base : (∃ a b, indexLoop (true :: rest) i f = IndexOutcome.aborted a b) ↔
          ∃ a b, indexLoop rest (i + 1) f = IndexOutcome.aborted a b := by
        simp [indexLoop]
      rw [base, ih (i + 1) f]
      constructor
      · rintro ⟨p, q, hl, hf, hi⟩
        refine ⟨true :: p, q, by simp [hl], ?_, ?_⟩ <;>
          simp [List.count_cons] at * <;> omega
      · rintro ⟨p, q, hl, hf, hi⟩
        cases p with
        | nil => simp at hl
        | cons hd tl =>
          obtain ⟨rfl, hrest⟩ : hd = true ∧ rest = tl ++ false :: q := by
            simpa using hl
          refine ⟨tl, q, hrest, ?_, ?_⟩ <;>
            simp [List.count_cons] at * <;> omega
    | false =>
      by_cases hc : 5 < f + 1 ∧ i < 10
      · constructor
        · intro _
          exact ⟨[], rest, by simp, by simpa using Nat.le_of_lt_succ hc.1,
            by simpa using hc.2⟩
        · intro _
          exact ⟨i, f + 1, by simp [indexLoop, if_pos hc]⟩
      · have base : (∃ a b, indexLoop (false :: rest) i f = IndexOutcome.aborted a b) ↔
            ∃ a b, indexLoop rest i (f + 1) = IndexOutcome.aborted a b := by
          simp [indexLoop, if_neg hc]
        rw [base, ih i (f + 1)]
        constructor
        · rintro ⟨p, q, hl, hf, hi⟩
          refine ⟨false :: p, q, by simp [hl], ?_, ?_⟩ <;>
            simp [List.count_cons] at * <;> omega
        · rintro ⟨p, q, hl, hf, hi⟩
          cases p with
          | nil =>
            obtain ⟨-, -⟩ : false = false ∧ rest = q := by simpa using hl
            simp only [List.count_nil] at hf hi
            exact absurd ⟨by omega, by omega⟩ hc
          | cons hd tl =>
            obtain ⟨rfl, hrest⟩ : hd = false ∧ rest = tl ++ false :: q := by
              simpa using hl
            refine ⟨tl, q, hrest, ?_, ?_⟩ <;>
              simp [List.count_cons] at * <;> omega

/-- C4: `indexVault` aborts with the TooManyFailures error exactly when some
document fails with more than 5 accumulated failures while fewer than 10
documents have been indexed; otherwise the run completes reporting all
successes and failures.  In particular 20 documents with the 7th always
failing complete with indexed = 19, failed = 1, and 6 failures before any
success abort with indexed = 0. -/
theorem systC4_circuit_breaker :
    (∀ outcomes : List Bool,
        (∃ a b, indexVault outcomes = IndexOutcome.aborted a b) ↔
          ∃ p q, outcomes = p ++ false :: q ∧
            5 ≤ p.count false ∧ p.count true < 10) ∧
    (∀ outcomes a b, indexVault outcomes = IndexOutcome.completed a b →
        a = outcomes.count true ∧ b = outcomes.count false) ∧
    indexVault (List.replicate 6 true ++ false :: List.replicate 13 true) =
      IndexOutcome.completed 19 1 ∧
    indexVault (List.replicate 6 false ++ List.replicate 2 true) =
      IndexOutcome.aborted 0 6 := by
  refine ⟨fun outcomes => ?_, fun outcomes a b h => ?_, by decide, by decide⟩
  · simpa using indexLoop_aborted_iff outcomes 0 0
  · simpa using indexLoop_completed_counts outcomes 0 0 a b h

/-- C6: evaluation of the code's repulsion expression at two coincident
concept points (both at (0.5, 0.5)): the distance is 0, which is below the
0.2 threshold, so the branch is taken, and the direction normalization
computes 0/0, a non-finite (NaN) force on both axes — contradicting the
claim that the applied force is finite even at distance exactly 0. -/
theorem systC6_repulsion_non_finite_at_distance_zero :
    pairRepulsion (1/2) (1/2) (1/2) (1/2) = (none, none) := by
  have hz : (1/2 : ℝ) - 1/2 = 0 := by norm_num
  simp only [pairRepulsion, hz]
  norm_num [jsDivF, jsMulF]

/-- C8: `cosineSimilarity` fails exactly on a dimension mismatch; for
equal-length vectors it returns 0 whenever either vector has zero norm, and
only otherwise divides, by the then-nonzero product of the norms. -/
theorem systC8_cosineSimilarity_contract :
    ∀ a b : List ℝ,
      ((∃ msg, cosineSimilarity a b = Except.error msg) ↔ a.length ≠ b.length) ∧
      (a.length = b.length →
        ((vecNorm a = 0 ∨ vecNorm b = 0) → cosineSimilarity a b = Except.ok 0) ∧
        (vecNorm a ≠ 0 → vecNorm b ≠ 0 →
          cosineSimilarity a b =
              Except.ok (dotList a b / (vecNorm a * vecNorm b)) ∧
            vecNorm a * vecNorm b ≠ 0)) := by
  intro a b
  by_cases hlen : a.length = b.length
  · refine ⟨⟨?_, fun h => absurd hlen h⟩, fun _ => ⟨fun hz => ?_, fun ha hb => ?_⟩⟩
    · rintro ⟨msg, hmsg⟩
      by_cases hz : vecNorm a = 0 ∨ vecNorm b = 0 <;>
        simp [cosineSimilarity, hlen, hz] at hmsg
    · simp [cosineSimilarity, hlen, hz]
    · have hz : ¬(vecNorm a = 0 ∨ vecNorm b = 0) := by tauto
      exact ⟨by simp [cosineSimilarity, hlen, hz], mul_ne_zero ha hb⟩
  · refine ⟨⟨fun _ => hlen, fun _ => ?_⟩, fun h => absurd h hlen⟩
    exact ⟨"Vectors must have same dimensions", by simp [cosineSimilarity, hlen]⟩

theorem findRecord_putRecord (store : List EmbeddingRecord) (r : EmbeddingRecord) :
    findRecord (putRecord store r) r.id = some r := by
  induction store with
  | nil => simp [putRecord, findRecord]
  | cons x xs ih =>
    by_cases h : x.id = r.id
    · simp [putRecord, h, findRecord]
    · have hb : (x.id == r.id) = false := by
        simpa using h
      simp only [putRecord, if_neg h, findRecord, List.find?]
      rw [hb]
      exact ih

/-- C7: `needsReindex` is true exactly when no record exists for the id or the
stored record's mtime is strictly below the current one; consequently a second
`indexNote` on an unchanged file leaves the store untouched and does not embed
or write (its written-flag is false), whatever the embedder, link extractor or
clock do on the second run. -/
theorem systC7_needsReindex_idempotent :
    (∀ store path mtime,
        needsReindex store path mtime = true ↔
          findRecord store path = none ∨
            ∃ r, findRecord store path = some r ∧ r.metadata.mtime < mtime) ∧
    (∀ embed links now embed' links' now' store file,
        indexNote embed' links' now' (indexNote embed links now store file).1 file =
          ((indexNote embed links now store file).1, false)) := by
  constructor
  · intro store path mtime
    unfold needsReindex
    cases h : findRecord store path with
    | none => simp
    | some r => simp [h]
  · intro embed links now embed' links' now' store file
    by_cases h1 : file.content.length < 50
    · simp [indexNote, h1]
    · by_cases h2 : needsReindex store file.path file.mtime = false
      · simp [indexNote, h1, h2]
      · obtain ⟨rec, hrun, hid, hmt⟩ :
            ∃ rec, indexNote embed links now store file = (putRecord store rec, true) ∧
              rec.id = file.path ∧ rec.metadata.mtime = file.mtime := by
          exact ⟨{ id := file.path, embedding := embed file.content,
                   text := takeStr file.content 500,
                   metadata := { title := file.basename, path := file.path,
                                 mtime := file.mtime, tags := [],
                                 links := links file.content },
                   timestamp := now },
                 by simp [indexNote, h1, h2], rfl, rfl⟩
        have hfind : findRecord (putRecord store rec) file.path = some rec := by
          rw [← hid]
          exact findRecord_putRecord store rec
        have hnr : needsReindex (putRecord store rec) file.path file.mtime = false := by
          unfold needsReindex
          rw [hfind]
          simp [hmt]
        rw [hrun]
        simp [indexNote, h1, hnr]

/-- C9: the layout created for a query has exactly one point per concept
candidate (in order, labelled by its term, velocity reset to (0,0)), preceded
by the center point labelled "query" at the origin, which is not one of the
concept states and which `applyForces` leaves at the origin after any number
of ticks. -/
theorem systC9_layout_center_fixed :
    ∀ (jitter : Nat → ℝ × ℝ) (terms : List String),
      (projectToVisualization jitter terms).length = terms.length + 1 ∧
      (projectToVisualization jitter terms).head? =
        some { x := 0, y := 0, label := "query" } ∧
      (projectToVisualization jitter terms).tail.map Point2D.label = terms ∧
      (initSimState jitter terms).concepts.length = terms.length ∧
      (∀ c ∈ (initSimState jitter terms).concepts, c.vx = 0 ∧ c.vy = 0) ∧
      (∀ n : Nat, (applyForces^[n] (initSimState jitter terms)).center =
        { x := 0, y := 0, label := "query" }) := by
  intro jitter terms
  refine ⟨?_, ?_, ?_, ?_, ?_, ?_⟩
  · simp [projectToVisualization]
  · simp [projectToVisualization]
  · simp only [projectToVisualization, List.tail_cons, List.map_map]
    exact List.enum_map_snd terms
  · simp [initSimState, projectToVisualization]
  · intro c hc
    simp only [initSimState, projectToVisualization, List.map_map,
      List.mem_map] at hc
    obtain ⟨p, -, rfl⟩ := hc
    exact ⟨rfl, rfl⟩
  · intro n
    induction n with
    | zero => simp [initSimState, projectToVisualization]
    | succ n ih =>
      rw [Function.iterate_succ_apply']
      simpa [applyForces] using ih

theorem foldl_max_dist_init (l : List Point2D) :
    ∀ a : ℝ, a ≤ l.foldl (fun acc p => max acc (dist0 p)) a := by
  induction l with
  | nil => intro a; exact le_refl a
  | cons p l ih =>
    intro a
    exact le_trans (le_max_left a (dist0 p)) (ih (max a (dist0 p)))

theorem foldl_max_dist_le (l : List Point2D) :
    ∀ (a : ℝ) (p : Point2D), p ∈ l →
      dist0 p ≤ l.foldl (fun acc q => max acc (dist0 q)) a := by
  induction l with
  | nil => intro a p hp; exact absurd hp (List.not_mem_nil p)
  | cons q l ih =>
    intro a p hp
    rcases List.mem_cons.mp hp with rfl | hmem
    · exact le_trans (le_max_right a (dist0 p)) (foldl_max_dist_init l _)
    · exact ih _ p hmem

theorem foldl_max_dist_cases (l : List Point2D) :
    ∀ a : ℝ, l.foldl (fun acc q => max acc (dist0 q)) a = a ∨
      ∃ p ∈ l, l.foldl (fun acc q => max acc (dist0 q)) a = dist0 p := by
  induction l with
  | nil => intro a; exact Or.inl rfl
  | cons q l ih =>
    intro a
    rcases ih (max a (dist0 q)) with h | ⟨p, hp, hv⟩
    · rcases max_choice a (dist0 q) with hc | hc
      · exact Or.inl (h.trans hc)
      · exact Or.inr ⟨q, List.mem_cons_self q l, h.trans hc⟩
    · exact Or.inr ⟨p, List.mem_cons_of_mem q hp, hv⟩

theorem le_maxDistOf (l : List Point2D) (p : Point2D) (hp : p ∈ l) :
    dist0 p ≤ maxDistOf l :=
  foldl_max_dist_le l 0 p hp

theorem dist0_scale (p : Point2D) (s : ℝ) (hs : 0 ≤ s) :
    dist0 { p with x := p.x * s, y := p.y * s } = dist0 p * s := by
  unfold dist0
  have h : p.x * s * (p.x * s) + p.y * s * (p.y * s) =
      (p.x * p.x + p.y * p.y) * (s * s) := by ring
  rw [h, Real.sqrt_mul (add_nonneg (mul_self_nonneg p.x) (mul_self_nonneg p.y)),
    Real.sqrt_mul_self hs]

/-- C10: for a nonempty point list with maximum origin-distance m, a
nonnegative radius: when m = 0 the points come back unchanged; when m > 0
every point is scaled by radius / m, so every returned point lies within the
radius and some returned point is exactly at the radius; labels and other
fields are preserved throughout. -/
theorem systC10_scaleToRadius_fits :
    ∀ (points : List Point2D) (radius : ℝ),
      points ≠ [] → 0 ≤ radius →
      (maxDistOf points = 0 → scaleToRadius points radius = points) ∧
      (0 < maxDistOf points →
        scaleToRadius points radius =
          points.map (fun p =>
            { p with x := p.x * (radius / maxDistOf points),
                     y := p.y * (radius / maxDistOf points) }) ∧
        (∀ q ∈ scaleToRadius points radius, dist0 q ≤ radius) ∧
        (∃ q ∈ scaleToRadius points radius, dist0 q = radius)) ∧
      (scaleToRadius points radius).map Point2D.label =
        points.map Point2D.label := by
  intro points radius hne hrad
  have hempty : points.isEmpty = false := by
    cases points with
    | nil => exact absurd rfl hne
    | cons p l => rfl
  have hlab : ∀ hm : maxDistOf points ≠ 0,
      (scaleToRadius points radius).map Point2D.label =
        points.map Point2D.label := by
    intro hm
    simp only [scaleToRadius, hempty, Bool.false_eq_true, if_false, hm,
      List.map_map]
    rfl
  refine ⟨fun hm => ?_, fun hm => ?_, ?_⟩
  · simp [scaleToRadius, hempty, hm]
  · have hmne : maxDistOf points ≠ 0 := ne_of_gt hm
    have heq : scaleToRadius points radius =
        points.map (fun p =>
          { p with x := p.x * (radius / maxDistOf points),
                   y := p.y * (radius / maxDistOf points) }) := by
      simp [scaleToRadius, hempty, hmne]
    have hs : 0 ≤ radius / maxDistOf points := div_nonneg hrad (le_of_lt hm)
    refine ⟨heq, fun q hq => ?_, ?_⟩
    · rw [heq] at hq
      obtain ⟨p, hp, rfl⟩ := List.mem_map.mp hq
      rw [dist0_scale p _ hs]
      calc dist0 p * (radius / maxDistOf points)
          ≤ maxDistOf points * (radius / maxDistOf points) :=
            mul_le_mul_of_nonneg_right (le_maxDistOf points p hp) hs
        _ = radius := by field_simp
    · rcases foldl_max_dist_cases points 0 with h0 | ⟨p, hp, hv⟩
      · exact absurd h0 hmne
      · have hvm : maxDistOf points = dist0 p := hv
        refine ⟨{ p with x := p.x * (radius / maxDistOf points),
                         y := p.y * (radius / maxDistOf points) }, ?_, ?_⟩
        · rw [heq]
          exact List.mem_map.mpr ⟨p, hp, rfl⟩
        · rw [dist0_scale p _ hs, ← hvm]
          field_simp
  · by_cases hm : maxDistOf points = 0
    · simp [scaleToRadius, hempty, hm]
    · exact hlab hm

/-- Witness for C10 at the single point (3, 4) and radius 10. -/
theorem systC10_scaleToRadius_fits_witness :
    (∀ q ∈ scaleToRadius [{ x := 3, y := 4, label := "a" }] 10, dist0 q ≤ 10) ∧
    ∃ q ∈ scaleToRadius [{ x := 3, y := 4, label := "a" }] 10, dist0 q = 10 := by
  have h := systC10_scaleToRadius_fits [{ x := 3, y := 4, label := "a" }] 10
    (List.cons_ne_nil _ _) (by norm_num)
  have hd : (0:ℝ) < dist0 { x := 3, y := 4, label := "a" } := by
    unfold dist0
    exact Real.sqrt_pos.mpr (by norm_num)
  have hm : 0 < maxDistOf [{ x := 3, y := 4, label := "a" }] := by
    have hfold : maxDistOf [{ x := 3, y := 4, label := "a" }] =
        max 0 (dist0 { x := 3, y := 4, label := "a" }) := rfl
    rw [hfold]
    exact lt_max_iff.mpr (Or.inr hd)
  exact ⟨(h.2.1 hm).2.1, (h.2.1 hm).2.2⟩

theorem mem_insertDesc {α : Type} (key : α → ℝ) (x : α) (l : List α) (a : α) :
    a ∈ insertDesc key x l ↔ a = x ∨ a ∈ l := by
  induction l with
  | nil => simp [insertDesc]
  | cons y ys ih =>
    by_cases h : key y ≤ key x
    · simp [insertDesc, h]
    · simp only [insertDesc, if_neg h, List.mem_cons, ih]
      tauto

theorem mem_sortDesc {α : Type} (key : α → ℝ) (l : List α) (a : α) :
    a ∈ sortDesc key l ↔ a ∈ l := by
  induction l with
  | nil => simp [sortDesc]
  | cons x xs ih => simp [sortDesc, mem_insertDesc, ih]

theorem rankConcepts_term_mem (qe : List ℝ) :
    ∀ (pairs : List (String × List ℝ)) (rs : List ConceptRanked),
      rankConcepts qe pairs = Except.ok rs →
      ∀ c ∈ rs, c.term ∈ pairs.map Prod.fst := by
  intro pairs
  induction pairs with
  | nil =>
    intro rs h c hc
    simp only [rankConcepts, Except.ok.injEq] at h
    subst h
    exact absurd hc (List.not_mem_nil c)
  | cons p ps ih =>
    intro rs h c hc
    obtain ⟨t, e⟩ := p
    cases hcs : cosineSimilarity qe e with
    | error msg => simp [rankConcepts, hcs] at h
    | ok sim =>
      cases hr : rankConcepts qe ps with
      | error msg => simp [rankConcepts, hcs, hr] at h
      | ok rest =>
        simp only [rankConcepts, hcs, hr, Except.ok.injEq] at h
        subst h
        rcases List.mem_cons.mp hc with rfl | hmem
        · exact List.mem_cons_self _ _
        · exact List.mem_cons_of_mem _ (ih rest hr c hmem)

theorem contains_false_ne {l : List String} {a : String}
    (h : l.contains a = false) : ∀ w ∈ l, a ≠ w := by
  intro w hw heq
  subst heq
  have hmem : l.contains a = true := List.elem_eq_true_of_mem hw
  rw [h] at hmem
  exact Bool.false_ne_true hmem

/-- C5: no concept term returned by `extractSemanticConcepts` is
case-insensitively equal to any query word passed to it (the query words, as
built by `handleSemanticSearch`, are already lowercase); in particular the
query "computer science" yields exactly the query-word set
["computer", "science"], so no returned term lowercases to "computer" or
"science". -/
theorem systC5_concept_terms_exclude_query_words :
    ∀ (llmConcepts queryWords : List String)
      (embedBatch : List String → List (List ℝ)) (queryEmbedding : List ℝ)
      (allRecords : List EmbeddingRecord),
      (∀ w ∈ queryWords, toLowerStr w = w) →
      buildQueryWords "computer science" = ["computer", "science"] ∧
      ∀ c ∈ extractSemanticConcepts llmConcepts queryWords embedBatch
          queryEmbedding allRecords,
        ∀ w ∈ queryWords, toLowerStr c.term ≠ toLowerStr w := by
  intro llmConcepts queryWords embedBatch queryEmbedding allRecords hnorm
  refine ⟨by decide, ?_⟩
  intro c hc w hw
  rw [hnorm w hw]
  simp only [extractSemanticConcepts] at hc
  set filtered :=
    llmConcepts.filter (fun term => !(queryWords.contains (toLowerStr term)))
    with hfil
  by_cases hfe : filtered.isEmpty
  · rw [if_pos hfe] at hc
    exact absurd hc (List.not_mem_nil c)
  · rw [if_neg hfe] at hc
    by_cases hlen : (embedBatch filtered).length < filtered.length
    · rw [if_pos hlen] at hc
      exact absurd hc (List.not_mem_nil c)
    · rw [if_neg hlen] at hc
      cases hr : rankConcepts queryEmbedding (filtered.zip (embedBatch filtered)) with
      | error msg =>
        rw [hr] at hc
        exact absurd hc (List.not_mem_nil c)
      | ok ranked =>
        rw [hr] at hc
        have hc' := List.mem_of_mem_take hc
        obtain ⟨c', hc'top, rfl⟩ := List.mem_map.mp hc'
        have hrank := List.mem_of_mem_take hc'top
        have hmem : c' ∈ ranked := (mem_sortDesc ConceptRanked.similarity ranked c').mp hrank
        have hterm : c'.term ∈ (filtered.zip (embedBatch filtered)).map Prod.fst :=
          rankConcepts_term_mem queryEmbedding _ ranked hr c' hmem
        rw [List.map_fst_zip filtered (embedBatch filtered) (Nat.le_of_not_lt hlen)]
          at hterm
        have hcont : queryWords.contains (toLowerStr c'.term) = false := by
          have hb := (List.mem_filter.mp hterm).2
          simpa using hb
        exact contains_false_ne hcont w hw

/-- Witness for C5 at the claim's own query-word set ["computer", "science"]
and an LLM answer that echoes one query word up to case. -/
theorem systC5_concept_terms_exclude_query_words_witness :
    buildQueryWords "computer science" = ["computer", "science"] ∧
    ∀ c ∈ extractSemanticConcepts ["Computer", "quantum"] ["computer", "science"]
        (fun ts => ts.map (fun _ => [1])) [1] [],
      ∀ w ∈ ["computer", "science"], toLowerStr c.term ≠ toLowerStr w :=
  systC5_concept_terms_exclude_query_words ["Computer", "quantum"]
    ["computer", "science"] (fun ts => ts.map (fun _ => [1])) [1] [] (by decide)

theorem scoreAll_score_le_one (q : List ℝ) (qt : Option String) :
    ∀ (records : List EmbeddingRecord) (scored : List ScoredNote),
      scoreAll q qt records = Except.ok scored → ∀ s ∈ scored, s.score ≤ 1 := by
  intro records
  induction records with
  | nil =>
    intro scored h s hs
    simp only [scoreAll, Except.ok.injEq] at h
    subst h
    exact absurd hs (List.not_mem_nil s)
  | cons r rs ih =>
    intro scored h s hs
    cases hc : cosineSimilarity q r.embedding with
    | error e => simp [scoreAll, scoreRecord, hc] at h
    | ok v =>
      cases hrest : scoreAll q qt rs with
      | error e => simp [scoreAll, scoreRecord, hc, hrest] at h
      | ok rest =>
        simp only [scoreAll, scoreRecord, hc, hrest, Except.ok.injEq] at h
        subst h
        rcases List.mem_cons.mp hs with rfl | hmem
        · exact min_le_left 1 _
        · exact ih rest hrest s hmem

/-- C1 (amended): every score returned by `findNearest` is
`min(1, cosine + boost)`, hence never exceeds 1 — even when the boosts alone
would push past 1 — but it is NOT clamped below at 0 and can be negative when
the cosine base score is negative (see the counterexample). -/
theorem systC1_scores_clamped_above :
    ∀ (q : List ℝ) (k : Nat) (qt : Option String)
      (records : List EmbeddingRecord) (out : List ScoredNote),
      findNearest q k qt records = Except.ok out →
      ∀ d ∈ out, d.score ≤ 1 := by
  intro q k qt records out h d hd
  cases hs : scoreAll q qt records with
  | error e => simp [findNearest, hs] at h
  | ok scored =>
    simp only [findNearest, hs, Except.ok.injEq] at h
    subst h
    have hmem : d ∈ scored :=
      (mem_sortDesc ScoredNote.score scored d).mp (List.mem_of_mem_take hd)
    exact scoreAll_score_le_one q qt records scored hs d hmem

/-- Witness for the amended C1 at the one-record store with a perfectly
matching embedding. -/
theorem systC1_scores_clamped_above_witness :
    ∃ out, findNearest [(1:ℝ)] 1 none [recA] = Except.ok out ∧
      ∀ d ∈ out, d.score ≤ 1 := by
  have heq : findNearest [(1:ℝ)] 1 none [recA] =
      Except.ok [{ path := "a", score := 1, embedding := [1],
                   metadata := metaOf "a" "a" }] := by
    norm_num [findNearest, scoreAll, scoreRecord, cosineSimilarity, vecNorm,
      dotList, Real.sqrt_one, sortDesc, insertDesc, recA]
  exact ⟨_, heq, systC1_scores_clamped_above _ _ _ _ _ heq⟩

/-- C1 counterexample: with query embedding [1] and a stored record whose
embedding is [-1] (no query text, so no boosts), `findNearest` returns that
record with score -1, i.e. `min(1, cosine + boosts)` is below 0 — the claim's
lower bound `score ≥ 0` does not hold on the code. -/
theorem systC1_counterexample_negative_score :
    findNearest [(1:ℝ)] 1 none [recN] =
      Except.ok [{ path := "n", score := -1, embedding := [-1],
                   metadata := metaOf "n" "n" }] ∧
    (-1 : ℝ) < 0 := by
  constructor
  · norm_num [findNearest, scoreAll, scoreRecord, cosineSimilarity, vecNorm,
      dotList, Real.sqrt_one, sortDesc, insertDesc, recN]
  · norm_num

theorem insertDesc_pairwise_R {α : Type} (key : α → ℝ) (Q : α → α → Prop)
    (x : α) (l : List α)
    (hl : l.Pairwise (fun a b => key b < key a ∨ (key a = key b ∧ Q a b)))
    (hx : ∀ y ∈ l, Q x y) :
    (insertDesc key x l).Pairwise
      (fun a b => key b < key a ∨ (key a = key b ∧ Q a b)) := by
  induction l with
  | nil => simp [insertDesc]
  | cons y ys ih =>
    by_cases h : key y ≤ key x
    · rw [insertDesc, if_pos h]
      refine List.Pairwise.cons (fun z hz => ?_) hl
      have hzy : key z ≤ key y := by
        rcases List.mem_cons.mp hz with rfl | hzys
        · exact le_refl _
        · rcases (List.pairwise_cons.mp hl).1 z hzys with hlt | ⟨heq, -⟩
          · exact le_of_lt hlt
          · exact le_of_eq heq.symm
      rcases lt_or_eq_of_le (le_trans hzy h) with hlt | heq2
      · exact Or.inl hlt
      · exact Or.inr ⟨heq2.symm, hx z hz⟩
    · rw [insertDesc, if_neg h]
      obtain ⟨hy, hys⟩ := List.pairwise_cons.mp hl
      refine List.Pairwise.cons (fun z hz => ?_)
        (ih hys (fun y' hy' => hx y' (List.mem_cons_of_mem _ hy')))
      rcases (mem_insertDesc key x ys z).mp hz with rfl | hzys
      · exact Or.inl (not_le.mp h)
      · exact hy z hzys

theorem sortDesc_pairwise_R {α : Type} (key : α → ℝ) (Q : α → α → Prop) :
    ∀ l : List α, l.Pairwise Q →
      (sortDesc key l).Pairwise
        (fun a b => key b < key a ∨ (key a = key b ∧ Q a b)) := by
  intro l
  induction l with
  | nil =>
    intro _
    simp [sortDesc]
  | cons x xs ih =>
    intro hl
    obtain ⟨hx, hxs⟩ := List.pairwise_cons.mp hl
    rw [sortDesc]
    exact insertDesc_pairwise_R key Q x (sortDesc key xs) (ih hxs)
      (fun y hy => hx y ((mem_sortDesc key xs y).mp hy))

theorem scoreAll_paths (q : List ℝ) (qt : Option String) :
    ∀ (records : List EmbeddingRecord) (scored : List ScoredNote),
      scoreAll q qt records = Except.ok scored →
      scored.map ScoredNote.path = records.map EmbeddingRecord.id := by
  intro records
  induction records with
  | nil =>
    intro scored h
    simp only [scoreAll, Except.ok.injEq] at h
    subst h
    rfl
  | cons r rs ih =>
    intro scored h
    cases hc : cosineSimilarity q r.embedding with
    | error e => simp [scoreAll, scoreRecord, hc] at h
    | ok v =>
      cases hrest : scoreAll q qt rs with
      | error e => simp [scoreAll, scoreRecord, hc, hrest] at h
      | ok rest =>
        simp only [scoreAll, scoreRecord, hc, hrest, Except.ok.injEq] at h
        subst h
        simpa using ih rest hrest

/-- C2: when the stored records arrive in ascending id order (IndexedDB's
`getAll` key order) and scoring succeeds, `findNearest` returns at most `k`
documents, sorted descending by score, and any two documents with exactly
equal scores appear with the lexicographically smaller id first (the JS sort
is stable). -/
theorem systC2_rank_sorted_tiebreak :
    ∀ (q : List ℝ) (k : Nat) (qt : Option String)
      (records : List EmbeddingRecord) (out : List ScoredNote),
      records.Pairwise (fun a b => a.id.data < b.id.data) →
      findNearest q k qt records = Except.ok out →
      out.length ≤ k ∧
      out.Pairwise (fun a b => b.score ≤ a.score) ∧
      out.Pairwise (fun a b => a.score = b.score → a.path.data < b.path.data) := by
  intro q k qt records out hid h
  cases hs : scoreAll q qt records with
  | error e => simp [findNearest, hs] at h
  | ok scored =>
    simp only [findNearest, hs, Except.ok.injEq] at h
    subst h
    have hmap : scored.map ScoredNote.path = records.map EmbeddingRecord.id :=
      scoreAll_paths q qt records scored hs
    have hql : (scored.map ScoredNote.path).Pairwise
        (fun a b => a.data < b.data) := by
      rw [hmap, List.pairwise_map]
      exact hid
    rw [List.pairwise_map] at hql
    have hR := sortDesc_pairwise_R ScoredNote.score
      (fun a b => a.path.data < b.path.data) scored hql
    have hRtake := hR.sublist (List.take_sublist k _)
    refine ⟨?_, ?_, ?_⟩
    · rw [List.length_take]
      exact min_le_left k _
    · exact hRtake.imp (fun hab => by
        rcases hab with hlt | ⟨heq, -⟩
        · exact le_of_lt hlt
        · exact le_of_eq heq.symm)
    · exact hRtake.imp (fun hab heq => by
        rcases hab with hlt | ⟨-, hq⟩
        · exact absurd (heq ▸ hlt) (lt_irrefl _)
        · exact hq)

/-- Witness for C2 at two records with identical embeddings (so exactly equal
scores) and ids "a" and "b" in store order. -/
theorem systC2_rank_sorted_tiebreak_witness :
    ∃ out, findNearest [(1:ℝ)] 2 none [recA, recB] = Except.ok out ∧
      out.length ≤ 2 ∧
      out.Pairwise (fun a b => b.score ≤ a.score) ∧
      out.Pairwise (fun a b => a.score = b.score → a.path.data < b.path.data) := by
  have hpw : [recA, recB].Pairwise (fun a b => a.id.data < b.id.data) := by
    refine List.Pairwise.cons (fun b hb => ?_)
      (List.Pairwise.cons (fun a ha => absurd ha (List.not_mem_nil a))
        List.Pairwise.nil)
    rcases List.mem_cons.mp hb with rfl | hb'
    · show recA.id.data < recB.id.data
      decide
    · exact absurd hb' (List.not_mem_nil b)
  have heq : findNearest [(1:ℝ)] 2 none [recA, recB] =
      Except.ok [{ path := "a", score := 1, embedding := [1],
                   metadata := metaOf "a" "a" },
                 { path := "b", score := 1, embedding := [1],
                   metadata := metaOf "b" "b" }] := by
    norm_num [findNearest, scoreAll, scoreRecord, cosineSimilarity, vecNorm,
      dotList, Real.sqrt_one, sortDesc, insertDesc, recA, recB]
  exact ⟨_, heq, systC2_rank_sorted_tiebreak _ _ _ _ _ hpw heq⟩

theorem segBoost_count (word : String) : ∀ (parts : List String) (acc : ℚ),
    parts.foldl
      (fun acc part =>
        if (splitFolderChars part).any (fun fw => folderWordMatch fw word) then
          acc + 12/100
        else acc)
      acc =
    acc + 12/100 * ((parts.filter (fun part =>
      (splitFolderChars part).any (fun fw => folderWordMatch fw word))).length : ℚ) := by
  intro parts
  induction parts with
  | nil => intro acc; simp
  | cons p ps ih =>
    intro acc
    by_cases h : (splitFolderChars p).any (fun fw => folderWordMatch fw word) = true
    · simp only [List.foldl_cons, if_pos h, ih, List.filter_cons, h, if_true,
        List.length_cons]
      push_cast
      ring
    · simp only [List.foldl_cons, if_neg h, ih, List.filter_cons]

theorem segBoost_eq (word : String) (parts : List String) :
    segBoost word parts = 12/100 * (segMatchCount word parts : ℚ) := by
  unfold segBoost segMatchCount
  rw [segBoost_count]
  ring

theorem perWord_foldl_sum (parts : List String) (titleL : String) :
    ∀ (l : List String) (acc : ℚ),
      l.foldl
        (fun acc word =>
          if 3 < word.length then
            acc + segBoost word parts +
              (if jsIncludes titleL word then 8/100 else 0)
          else acc)
        acc =
      acc + (l.map (fun w =>
        if 3 < w.length then
          segBoost w parts + (if jsIncludes titleL w then 8/100 else 0)
        else 0)).sum := by
  intro l
  induction l with
  | nil => intro acc; simp
  | cons w ws ih =>
    intro acc
    by_cases h : 3 < w.length
    · simp only [List.foldl_cons, if_pos h, ih, List.map_cons, List.sum_cons]
      ring
    · simp only [List.foldl_cons, if_neg h, ih, List.map_cons, List.sum_cons]
      ring

theorem sum_map_ite_zero (g : String → ℚ) (p : String → Bool) :
    ∀ l : List String,
      (l.map (fun w => if p w = true then g w else 0)).sum =
        ((l.filter p).map g).sum := by
  intro l
  induction l with
  | nil => simp
  | cons w ws ih =>
    by_cases h : p w = true
    · simp [h, ih]
    · simp [h, ih]

theorem sum_map_add_parts (f g : String → ℚ) :
    ∀ l : List String,
      (l.map (fun w => f w + g w)).sum = (l.map f).sum + (l.map g).sum := by
  intro l
  induction l with
  | nil => simp
  | cons w ws ih =>
    simp only [List.map_cons, List.sum_cons, ih]
    ring

theorem sum_map_mul_const (c : ℚ) (h : String → ℚ) :
    ∀ l : List String,
      (l.map (fun w => c * h w)).sum = c * (l.map h).sum := by
  intro l
  induction l with
  | nil => simp
  | cons w ws ih =>
    simp only [List.map_cons, List.sum_cons, ih]
    ring

theorem sum_map_ite_const (c : ℚ) (p : String → Bool) :
    ∀ l : List String,
      (l.map (fun w => if p w = true then c else 0)).sum =
        c * ((l.filter p).length : ℚ) := by
  intro l
  induction l with
  | nil => simp
  | cons w ws ih =>
    by_cases h : p w = true
    · simp only [List.map_cons, List.sum_cons, if_pos h, ih, List.filter_cons, h,
        if_true, List.length_cons]
      push_cast
      ring
    · simp only [List.map_cons, List.sum_cons, if_neg h, ih, List.filter_cons]
      ring

theorem filter_gt3_of_gt2 (l : List String) :
    (l.filter (fun w => 2 < w.length)).filter (fun w => 3 < w.length) =
      l.filter (fun w => 3 < w.length) := by
  rw [List.filter_filter]
  apply List.filter_congr
  intro a _
  by_cases h3 : 3 < a.length
  · have h2 : 2 < a.length := Nat.lt_trans (by norm_num) h3
    simp [h3, h2]
  · simp [h3]

theorem foldl_max_two_le (g : String → Nat) :
    ∀ (l : List String) (a : Nat),
      (2 ≤ l.foldl (fun b part => max b (g part)) a) ↔
        2 ≤ a ∨ ∃ part ∈ l, 2 ≤ g part := by
  intro l
  induction l with
  | nil => intro a; simp
  | cons p ps ih =>
    intro a
    rw [List.foldl_cons, ih (max a (g p))]
    constructor
    · rintro (hm | ⟨part, hpart, hg⟩)
      · rcases le_max_iff.mp hm with ha | hp
        · exact Or.inl ha
        · exact Or.inr ⟨p, List.mem_cons_self p ps, hp⟩
      · exact Or.inr ⟨part, List.mem_cons_of_mem p hpart, hg⟩
    · rintro (ha | ⟨part, hpart, hg⟩)
      · exact Or.inl (le_max_iff.mpr (Or.inl ha))
      · rcases List.mem_cons.mp hpart with rfl | hmem
        · exact Or.inl (le_max_iff.mpr (Or.inr hg))
        · exact Or.inr ⟨part, hmem, hg⟩

theorem sum_map_ite_len (g : String → ℚ) :
    ∀ l : List String,
      (l.map (fun w => if 3 < w.length then g w else 0)).sum =
        ((l.filter (fun w => 3 < w.length)).map g).sum := by
  intro l
  induction l with
  | nil => simp
  | cons w ws ih =>
    by_cases h : 3 < w.length
    · simp [h, ih]
    · simp [h, ih]

theorem filter_len_includes_eq (q part : String) :
    ((splitWs (toLowerStr q)).filter (fun w => 2 < w.length)).filter
        (fun w => decide (3 < w.length) && jsIncludes part w) =
      (specTokens q).filter (fun w => jsIncludes part w) := by
  unfold specTokens
  rw [List.filter_filter, List.filter_filter]
  apply List.filter_congr
  intro a _
  by_cases h3 : 3 < a.length
  · have h2 : 2 < a.length := Nat.lt_trans (by norm_num) h3
    by_cases hi : jsIncludes part a = true
    · simp [h3, h2, hi]
    · simp [h3, h2, hi]
  · simp [h3]

/-- C3 (amended): the hybrid boost equals +0.12 per (query token, path
segment) pair whose segment holds a matching folder word, +0.08 per query
token contained in the title, plus a flat +0.15 when some single path segment
substring-contains at least 2 query tokens — where the query tokens are the
lowercased whitespace-split tokens of length above 3 COUNTED WITH
MULTIPLICITY: a token repeated in the query contributes each time, and the
+0.15 trigger does not require the 2 matching tokens to be distinct. -/
theorem systC3_boost_decomposition :
    ∀ queryText path title : String,
      hybridBoost queryText path title =
        12/100 * (((specTokens queryText).map
            (fun w => (segMatchCount w (splitSlash (toLowerStr path)) : ℚ))).sum) +
        8/100 * (((specTokens queryText).filter
            (fun w => jsIncludes (toLowerStr title) w)).length : ℚ) +
        (if (splitSlash (toLowerStr path)).any
            (fun part => 2 ≤ ((specTokens queryText).filter
              (fun w => jsIncludes part w)).length)
          then 15/100 else 0) := by
  intro q path title
  simp only [hybridBoost]
  rw [perWord_foldl_sum (splitSlash (toLowerStr path)) (toLowerStr title)]
  rw [sum_map_ite_len
    (fun w => segBoost w (splitSlash (toLowerStr path)) +
      (if jsIncludes (toLowerStr title) w then 8/100 else 0))]
  rw [filter_gt3_of_gt2 (splitWs (toLowerStr q))]
  have hseg : ∀ w : String,
      segBoost w (splitSlash (toLowerStr path)) +
        (if jsIncludes (toLowerStr title) w then 8/100 else 0) =
      12/100 * (segMatchCount w (splitSlash (toLowerStr path)) : ℚ) +
        (if jsIncludes (toLowerStr title) w then 8/100 else 0) := by
    intro w
    rw [segBoost_eq]
  simp only [hseg]
  rw [sum_map_add_parts
    (fun w => 12/100 * (segMatchCount w (splitSlash (toLowerStr path)) : ℚ))
    (fun w => if jsIncludes (toLowerStr title) w then 8/100 else 0)]
  rw [sum_map_mul_const (12/100)
    (fun w => (segMatchCount w (splitSlash (toLowerStr path)) : ℚ))]
  rw [sum_map_ite_const (8/100) (jsIncludes (toLowerStr title))]
  have hcond :
      (2 ≤ (splitSlash (toLowerStr path)).foldl
        (fun best part =>
          max best
            ((((splitWs (toLowerStr q)).filter (fun w => 2 < w.length)).filter
              (fun w => decide (3 < w.length) && jsIncludes part w)).length))
        0) ↔
      ((splitSlash (toLowerStr path)).any
        (fun part => 2 ≤ ((specTokens q).filter
          (fun w => jsIncludes part w)).length) = true) := by
    rw [foldl_max_two_le
      (fun part =>
        (((splitWs (toLowerStr q)).filter (fun w => 2 < w.length)).filter
          (fun w => decide (3 < w.length) && jsIncludes part w)).length)]
    simp only [filter_len_includes_eq, List.any_eq_true, decide_eq_true_eq]
    simp
  rw [if_congr hcond rfl rfl]
  unfold specTokens
  ring

/-- C3 counterexample: the query "deep deep" (all tokens longer than 3
characters) against the path "deep/x" with an empty title: the code's boost is
0.12 + 0.12 + 0.15 = 0.39 — the duplicated token earns the path boost twice
and alone triggers the ≥2-words segment bonus — while the claim's
distinct-word reading gives 0.12. -/
theorem systC3_counterexample_duplicate_tokens :
    (∀ w ∈ splitWs (toLowerStr "deep deep"), 3 < w.length) ∧
    hybridBoost "deep deep" "deep/x" "" ≠ specBoostClaim "deep deep" "deep/x" "" := by
  constructor
  · decide
  · have hl : hybridBoost "deep deep" "deep/x" "" = 39/100 := by
      simp +decide [hybridBoost, segBoost, splitWs, splitSlash, splitFolderChars,
        splitPred, splitListAux, toLowerStr, jsIncludes, isInfixList,
        folderWordMatch, jsStartsWith]
      norm_num
    have hr : specBoostClaim "deep deep" "deep/x" "" = 12/100 := by
      simp +decide [specBoostClaim, specTokens, segMatchCount, splitWs, splitSlash,
        splitFolderChars, splitPred, splitListAux, toLowerStr, jsIncludes,
        isInfixList, folderWordMatch, jsStartsWith]
    rw [hl, hr]
    norm_num

end Systematics
